import Mathlib

/-!
Verification development for the entity-extraction core of the meeting
scheduler chatbot (`entity_extraction_chatbot.py`).

The Python source works on strings with `re`; here text is modelled as
`List Char` (ASCII character classes, matching CPython's behaviour on the
inputs this program handles).  Each regular expression of the source is
embedded as an explicit matching function that mirrors Python's
leftmost, alternation-ordered, greedy-with-backtracking `findall` /
`match` / `search` semantics for that concrete pattern.  `datetime.now()`
is modelled as an integer parameter `today` counting days since
1970-01-01 (so `weekday()` is `(today + 3) % 7`, Monday = 0), and
`strftime("%Y-%m-%d")` as `formatDate`, using the standard proleptic
Gregorian conversion from day numbers.  The spaCy NER model is an
external capability and is modelled as a function parameter `ner`
returning the PERSON spans of the text.
-/

/-! ## Character classes (ASCII reading of Python's `\w`, `\s`, `\d`, `[A-Z]`, `[a-z]`) -/

/-- Python `\w` (ASCII): letter, digit or underscore. -/
def isWordChar (c : Char) : Bool :=
  c.isAlpha || c.isDigit || c = '_'

/-- Python `\s` (ASCII): space, tab, newline, carriage return, vertical tab, form feed. -/
def isSpaceChar (c : Char) : Bool :=
  c = ' ' || c = '\t' || c = '\n' || c = '\r' || c = '\x0b' || c = '\x0c'

/-- Python `\d` (ASCII): decimal digit. -/
def isDigitChar (c : Char) : Bool :=
  c.isDigit

/-- Regex class `[A-Z]`. -/
def isUpperChar (c : Char) : Bool :=
  c.isUpper

/-- Regex class `[a-z]`. -/
def isLowerChar (c : Char) : Bool :=
  c.isLower

/-- `\b` before a word character: the previous character (if any) must not be
a word character.  `none` means start of text. -/
def boundaryOK (prev : Option Char) : Bool :=
  match prev with
  | none => true
  | some c => !isWordChar c

/-- `\b` after a word character: the next character (if any) must not be a
word character.  Also serves as the negative lookahead `(?!\w)`. -/
def afterBoundary (rest : List Char) : Bool :=
  match rest with
  | [] => true
  | c :: _ => !isWordChar c

/-! ## Literal matching -/

/-- Case-insensitive literal match (the literal is given lowercase, as it
appears in the `re.IGNORECASE` patterns).  Returns the consumed characters
(original case) and the rest. -/
def litCI : List Char → List Char → Option (List Char × List Char)
  | [], cs => some ([], cs)
  | _ :: _, [] => none
  | l :: ls, c :: cs =>
    if c.toLower = l then
      match litCI ls cs with
      | some (con, r) => some (c :: con, r)
      | none => none
    else none

/-- Case-sensitive literal match. -/
def litCS : List Char → List Char → Option (List Char × List Char)
  | [], cs => some ([], cs)
  | _ :: _, [] => none
  | l :: ls, c :: cs =>
    if c = l then
      match litCS ls cs with
      | some (con, r) => some (c :: con, r)
      | none => none
    else none

/-- One word alternative followed by a trailing `\b`. -/
def tryWordCI (w : List Char) (cs : List Char) : Option (List Char × List Char) :=
  match litCI w cs with
  | some (con, r) => if afterBoundary r then some (con, r) else none
  | none => none

/-- Ordered alternation of word alternatives, each with its own trailing
`\b`, as Python's backtracking tries them left to right. -/
def tryWordsCI : List (List Char) → List Char → Option (List Char × List Char)
  | [], _ => none
  | w :: ws, cs => (tryWordCI w cs) <|> tryWordsCI ws cs

/-! ## The generic scanner: Python's `re.findall`

`re.findall` scans positions left to right, emits the leftmost
non-overlapping matches and resumes right after each match.  The matcher
receives the previous character (for `\b`) and the remaining text and
returns `(consumed, emitted, rest)`; for the group-free patterns the
emitted value is the consumed substring, for the duration pattern it is
the captured group.  Every embedded matcher consumes at least one
character, so `length + 1` fuel is enough to reach the end of the text. -/

def scanAll (m : Option Char → List Char → Option (List Char × α × List Char)) :
    Nat → Option Char → List Char → List α
  | 0, _, _ => []
  | _ + 1, _, [] => []
  | fuel + 1, prev, c :: cs =>
    match m prev (c :: cs) with
    | some (con, out, rest) => out :: scanAll m fuel (some (con.getLastD c)) rest
    | none => scanAll m fuel (some c) cs

/-- Wrap a plain matcher so that it emits the consumed substring, as
`findall` does for patterns without capturing groups. -/
def subEmit (m : Option Char → List Char → Option (List Char × List Char)) :
    Option Char → List Char → Option (List Char × List Char × List Char) :=
  fun prev cs =>
    match m prev cs with
    | some (con, r) => some (con, con, r)
    | none => none

/-! ## Date pattern
`r'\b(?:today|tomorrow|yesterday)\b|\bnext\s+(?:Monday|...|Sunday)\b'`, `re.IGNORECASE` -/

def dateWords : List (List Char) :=
  [String.data "today", String.data "tomorrow", String.data "yesterday"]

def weekdayWords : List (List Char) :=
  [String.data "monday", String.data "tuesday", String.data "wednesday",
   String.data "thursday", String.data "friday", String.data "saturday",
   String.data "sunday"]

def matchDateAt (prev : Option Char) (cs : List Char) : Option (List Char × List Char) :=
  if boundaryOK prev then
    (tryWordsCI dateWords cs) <|>
    (match litCI (String.data "next") cs with
     | some (con1, r1) =>
       -- `\s+`: at least one whitespace character (greedy; the weekday
       -- alternatives start with letters, so only the maximal run can work)
       let sp := r1.takeWhile isSpaceChar
       let r2 := r1.dropWhile isSpaceChar
       if sp.isEmpty then none
       else
         match tryWordsCI weekdayWords r2 with
         | some (con2, r3) => some (con1 ++ sp ++ con2, r3)
         | none => none
     | none => none)
  else none

def dateFindall (text : List Char) : List (List Char) :=
  scanAll (subEmit matchDateAt) (text.length + 1) none text

/-! ## Time pattern
`r'\b\d{1,2}(?::\d{2})?\s*(?:am|pm)\b|\b\d{1,2}\s*(?:am|pm)\b'`, `re.IGNORECASE`.
The second alternative is the first with the optional colon group empty, and
backtracking tries exactly that before giving up on the first alternative,
so the alternation is equivalent to the first alternative alone; it is
still embedded as the final `<|>`. -/

/-- `\s*(?:am|pm)\b` after the already-consumed prefix `acc`. -/
def meridTail (acc : List Char) (rest : List Char) : Option (List Char × List Char) :=
  let sp := rest.takeWhile isSpaceChar
  let r := rest.dropWhile isSpaceChar
  match (litCI (String.data "am") r) <|> (litCI (String.data "pm") r) with
  | some (mer, r2) => if afterBoundary r2 then some (acc ++ sp ++ mer, r2) else none
  | none => none

/-- `:\d{2}` then the meridiem tail. -/
def colonTail (acc : List Char) (rest : List Char) : Option (List Char × List Char) :=
  match rest with
  | c0 :: d1 :: d2 :: r =>
    if c0 = ':' && isDigitChar d1 && isDigitChar d2 then
      meridTail (acc ++ [c0, d1, d2]) r
    else none
  | _ => none

/-- `(?::\d{2})?\s*(?:am|pm)\b`: the optional group is greedy, so the
colon branch is tried first and backtracking falls through to the
no-colon branch. -/
def hourTail (acc : List Char) (rest : List Char) : Option (List Char × List Char) :=
  (colonTail acc rest) <|> meridTail acc rest

def matchTimeAt (prev : Option Char) (cs : List Char) : Option (List Char × List Char) :=
  if boundaryOK prev then
    match cs with
    | [] => none
    | c1 :: r1 =>
      if isDigitChar c1 then
        -- `\d{1,2}` is greedy: two digits first, backtrack to one
        (match r1 with
         | c2 :: r2 => if isDigitChar c2 then hourTail [c1, c2] r2 else none
         | [] => none) <|> hourTail [c1] r1
      else none
  else none

def timeFindall (text : List Char) : List (List Char) :=
  scanAll (subEmit matchTimeAt) (text.length + 1) none text

/-! ## Duration pattern: six alternatives, each with one capturing group
```
r'\b(\d+)\s*(?:minute|min|mins)\b'     r'\b(\d+)\s*(?:hour|hr|hours)\b'
r'\bfor\s+(\d+)\s*(?:minute|min|mins)\b'  r'\bfor\s+(\d+)\s*(?:hour|hr|hours)\b'
r'\b(\d+)(?:m|min)\b'                  r'\b(\d+)(?:h|hr)\b'
```
joined with `|` under `re.IGNORECASE`.  `findall` returns 6-tuples whose
single non-empty slot is the captured number; the matcher therefore emits
the captured group directly. -/

def minUnits : List (List Char) :=
  [String.data "minute", String.data "min", String.data "mins"]

def hourUnits : List (List Char) :=
  [String.data "hour", String.data "hr", String.data "hours"]

/-- `(\d+)\s*(?:unit...)\b`; returns (consumed, group, rest). -/
def numUnitAt (units : List (List Char)) (cs : List Char) :
    Option (List Char × List Char × List Char) :=
  let num := cs.takeWhile isDigitChar
  let r1 := cs.dropWhile isDigitChar
  if num.isEmpty then none
  else
    let sp := r1.takeWhile isSpaceChar
    let r2 := r1.dropWhile isSpaceChar
    match tryWordsCI units r2 with
    | some (ucon, r3) => some (num ++ sp ++ ucon, num, r3)
    | none => none

/-- `for\s+(\d+)\s*(?:unit...)\b`. -/
def forNumUnitAt (units : List (List Char)) (cs : List Char) :
    Option (List Char × List Char × List Char) :=
  match litCI (String.data "for") cs with
  | some (fcon, r1) =>
    let sp1 := r1.takeWhile isSpaceChar
    let r2 := r1.dropWhile isSpaceChar
    if sp1.isEmpty then none
    else
      let num := r2.takeWhile isDigitChar
      let r3 := r2.dropWhile isDigitChar
      if num.isEmpty then none
      else
        let sp2 := r3.takeWhile isSpaceChar
        let r4 := r3.dropWhile isSpaceChar
        match tryWordsCI units r4 with
        | some (ucon, r5) => some (fcon ++ sp1 ++ num ++ sp2 ++ ucon, num, r5)
        | none => none
  | none => none

/-- `(\d+)(?:u...)\b` with no whitespace between number and unit. -/
def numSuffixAt (units : List (List Char)) (cs : List Char) :
    Option (List Char × List Char × List Char) :=
  let num := cs.takeWhile isDigitChar
  let r1 := cs.dropWhile isDigitChar
  if num.isEmpty then none
  else
    match tryWordsCI units r1 with
    | some (ucon, r2) => some (num ++ ucon, num, r2)
    | none => none

def matchDurAt (prev : Option Char) (cs : List Char) :
    Option (List Char × List Char × List Char) :=
  -- every alternative starts with `\b` followed by a word character
  if boundaryOK prev then
    numUnitAt minUnits cs <|> numUnitAt hourUnits cs <|>
    forNumUnitAt minUnits cs <|> forNumUnitAt hourUnits cs <|>
    numSuffixAt [String.data "m", String.data "min"] cs <|>
    numSuffixAt [String.data "h", String.data "hr"] cs
  else none

def durFindall (text : List Char) : List (List Char) :=
  scanAll matchDurAt (text.length + 1) none text

/-! ## Unit re-scan of the whole text
`re.search(r'(?:minute|min|mins|m)(?!\w)', text, re.IGNORECASE)` and the
`hour` analogue, used to choose the output label of every duration match. -/

/-- One search position: ordered alternatives, each followed by the
negative lookahead `(?!\w)`. -/
def unitHitAt (units : List (List Char)) (cs : List Char) : Bool :=
  units.any (fun u =>
    match litCI u cs with
    | some (_, r) => afterBoundary r
    | none => false)

def searchUnits (units : List (List Char)) : List Char → Bool
  | [] => false
  | c :: cs => unitHitAt units (c :: cs) || searchUnits units cs

def minuteSearch (text : List Char) : Bool :=
  searchUnits [String.data "minute", String.data "min", String.data "mins",
               String.data "m"] text

def hourSearch (text : List Char) : Bool :=
  searchUnits [String.data "hour", String.data "hr", String.data "hours",
               String.data "h"] text

/-! ## Attendee fallback pattern
`r'\b[A-Z][a-z]+ (?:[A-Z][a-z]+)?\b'` (case-sensitive).
The first capitalized word must be followed by a literal space.  The
optional second word is greedy; if its trailing `\b` fails every shorter
`[a-z]+` split also fails (the next character would be a lowercase
letter), so backtracking falls through to the empty group, whose `\b`
(preceded by the space) demands a word character next. -/

def secondWord (c1 : Char) (run : List Char) (r3 : List Char) :
    Option (List Char × List Char) :=
  match r3 with
  | [] => none
  | c2 :: r4 =>
    if isUpperChar c2 then
      let run2 := r4.takeWhile isLowerChar
      let r5 := r4.dropWhile isLowerChar
      if run2.isEmpty then none
      else if afterBoundary r5 then some (c1 :: run ++ ' ' :: c2 :: run2, r5)
      else none
    else none

def matchNameAt (prev : Option Char) (cs : List Char) : Option (List Char × List Char) :=
  if boundaryOK prev then
    match cs with
    | [] => none
    | c1 :: r1 =>
      if isUpperChar c1 then
        let run := r1.takeWhile isLowerChar
        let r2 := r1.dropWhile isLowerChar
        if run.isEmpty then none
        else
          match r2 with
          | [] => none
          | s :: r3 =>
            if s = ' ' then
              (secondWord c1 run r3) <|>
              (match r3 with
               | c2 :: _ =>
                 if isWordChar c2 then some (c1 :: run ++ [' '], r3) else none
               | [] => none)
            else none
      else none
  else none

def nameFindall (text : List Char) : List (List Char) :=
  scanAll (subEmit matchNameAt) (text.length + 1) none text

/-! ## Calendar arithmetic: `datetime`, `timedelta`, `strftime("%Y-%m-%d")` -/

/-- Python's `date.weekday()` for a day count since 1970-01-01 (a
Thursday): Monday = 0, ..., Sunday = 6. -/
def pyWeekday (today : Int) : Int :=
  (today + 3) % 7

/-- Proleptic Gregorian conversion of a day count since 1970-01-01 to
(year, month, day) — the civil-from-days algorithm used by `datetime`. -/
def civilFromDays (z0 : Int) : Int × Int × Int :=
  let z := z0 + 719468
  let era := z.fdiv 146097
  let doe := z - era * 146097
  let yoe := (doe - doe / 1460 + doe / 36524 - doe / 146096) / 365
  let y := yoe + era * 400
  let doy := doe - (365 * yoe + yoe / 4 - yoe / 100)
  let mp := (5 * doy + 2) / 153
  let d := doy - (153 * mp + 2) / 5 + 1
  let m := mp + (if mp < 10 then 3 else -9)
  (y + (if m ≤ 2 then 1 else 0), m, d)

def intDigits (i : Int) : List Char :=
  if i < 0 then '-' :: (Nat.toDigits 10 (-i).toNat)
  else Nat.toDigits 10 i.toNat

def padZeros (w : Nat) (s : List Char) : List Char :=
  List.replicate (w - s.length) '0' ++ s

/-- `strftime("%Y-%m-%d")` of a day count since 1970-01-01. -/
def formatDate (day : Int) : List Char :=
  let ymd := civilFromDays day
  padZeros 4 (intDigits ymd.1) ++ '-' :: padZeros 2 (intDigits ymd.2.1) ++
    '-' :: padZeros 2 (intDigits ymd.2.2)

/-! ## `parse_date` -/

def isPrefixList : List Char → List Char → Bool
  | [], _ => true
  | _ :: _, [] => false
  | a :: as, b :: bs => a = b && isPrefixList as bs

/-- Index of the first alternative that matches at the start of `cs`
(the alternation inside `re.match(r'next\s+(monday|...)', ...)`). -/
def firstMatchIdx : List (List Char) → List Char → Option Nat
  | [], _ => none
  | w :: ws, cs =>
    if isPrefixList w cs then some 0
    else (firstMatchIdx ws cs).map (· + 1)

/-- `re.match(r'next\s+(monday|tuesday|...|sunday)', date_str.lower())`:
anchored at the start, no trailing boundary; returns the index of the
matched weekday name, which is exactly the `days` dictionary value. -/
def nextDayMatch (cs : List Char) : Option Nat :=
  match litCS (String.data "next") cs with
  | some (_, r1) =>
    let sp := r1.takeWhile isSpaceChar
    let r2 := r1.dropWhile isSpaceChar
    if sp.isEmpty then none
    else firstMatchIdx weekdayWords r2
  | none => none

/-- `AdvancedEntityExtractor.parse_date`.  The `try` body cannot fail on
any input (and the `except` branch also returns `date_str`), so the
function is total.  `days_ahead = days[target_day] - today.weekday() + 7`
— note: no modulo. -/
def parse_date (date_str : List Char) (today : Int) : List Char :=
  match nextDayMatch (date_str.map Char.toLower) with
  | some idx => formatDate (today + ((idx : Int) - pyWeekday today + 7))
  | none =>
    if date_str.map Char.toLower = String.data "today" then formatDate today
    else if date_str.map Char.toLower = String.data "tomorrow" then formatDate (today + 1)
    else if date_str.map Char.toLower = String.data "yesterday" then formatDate (today - 1)
    else date_str

/-! ## `extract_entities` -/

/-- Structural worker for `pyDedup` (`fuel ≥ length` always holds when
called through `pyDedup`, since `filter` never lengthens a list). -/
def pyDedupGo : Nat → List (List Char) → List (List Char)
  | 0, _ => []
  | _ + 1, [] => []
  | fuel + 1, x :: xs => x :: pyDedupGo fuel (xs.filter (fun y => y ≠ x))

/-- `list(dict.fromkeys(attendees))`: stable de-duplication keeping the
first occurrence of each element (insertion order of `dict.fromkeys`). -/
def pyDedup (l : List (List Char)) : List (List Char) :=
  pyDedupGo l.length l

/-- spaCy PERSON spans, with the fallback regex when the model finds
nothing (`if not attendees:`). -/
def rawAttendees (text : List Char) (ner : List Char → List (List Char)) :
    List (List Char) :=
  if (ner text).isEmpty then nameFindall text else ner text

/-- Label of a single duration match: the unit is decided by re-scanning
the whole input text, minutes first; a match is dropped when neither
search hits. -/
def labelDuration (text : List Char) (n : List Char) : Option (List Char) :=
  if minuteSearch text then some (n ++ String.data " mins")
  else if hourSearch text then some (n ++ String.data " hours")
  else none

/-- `AdvancedEntityExtractor.extract_entities`: the result dictionary with
its four keys in insertion order. -/
def extract_entities (text : List Char) (today : Int)
    (ner : List Char → List (List Char)) : List (List Char × List (List Char)) :=
  [(String.data "DATE", (dateFindall text).map (fun d => parse_date d today)),
   (String.data "TIME", timeFindall text),
   (String.data "DURATION", (durFindall text).filterMap (labelDuration text)),
   (String.data "ATTENDEE", pyDedup (rawAttendees text ner))]

/-- Dictionary access `entities[k]`. -/
def category (k : List Char) (es : List (List Char × List (List Char))) :
    List (List Char) :=
  match List.lookup k es with
  | some v => v
  | none => []

/-- An NER stub returning no PERSON spans (used to exercise the fallback). -/
def nerNone : List Char → List (List Char) := fun _ => []

/-- An NER stub returning the same PERSON span twice. -/
def nerTwice : List Char → List (List Char) := fun _ => [String.data "Bob", String.data "Bob"]

/-! ## Declarative (spec-level) predicates used to state the claims -/

/-- `m` occurs literally as a contiguous substring of `text`. -/
def occursIn (m text : List Char) : Prop :=
  ∃ pre post, text = pre ++ m ++ post

/-- The clock-time shape of the spec: `H[:MM] am|pm` — a 1–2 digit hour,
optionally `:` and two minute digits, optional whitespace, and a
case-insensitive meridiem marker. -/
def isTimeLiteral (m : List Char) : Prop :=
  ∃ hh cp sp mer, m = hh ++ cp ++ sp ++ mer ∧
    (hh.length = 1 ∨ hh.length = 2) ∧ (∀ c ∈ hh, isDigitChar c = true) ∧
    (cp = [] ∨ ∃ d1 d2, cp = [':', d1, d2] ∧ isDigitChar d1 = true ∧ isDigitChar d2 = true) ∧
    (∀ c ∈ sp, isSpaceChar c = true) ∧
    (mer.map Char.toLower = String.data "am" ∨ mer.map Char.toLower = String.data "pm")

/-- The shape of a fallback attendee match as the code's regex actually
produces it: a capitalized word, a mandatory space, and then either a
second capitalized word or nothing (the single-word match keeps its
trailing space). -/
def isNameShape (m : List Char) : Prop :=
  (∃ c1 r1, m = c1 :: r1 ++ [' '] ∧ isUpperChar c1 = true ∧ r1 ≠ [] ∧
    (∀ c ∈ r1, isLowerChar c = true)) ∨
  (∃ c1 r1 c2 r2, m = c1 :: r1 ++ ' ' :: c2 :: r2 ∧ isUpperChar c1 = true ∧ r1 ≠ [] ∧
    (∀ c ∈ r1, isLowerChar c = true) ∧ isUpperChar c2 = true ∧ r2 ≠ [] ∧
    (∀ c ∈ r2, isLowerChar c = true))

/-- The "next weekday" offset as the SPEC's sentence describes it (for
comparison with the code): `(target_weekday_index - current_weekday_index
+ 7) mod 7`, forced to 7 when the modulo result is 0. -/
def claimedNextOffset (target current : Int) : Int :=
  if (target - current + 7) % 7 = 0 then 7 else (target - current + 7) % 7

/-- Weekday name with the `days` dictionary index `k` (monday = 0, ...). -/
def dayNameN (k : Nat) : List Char :=
  weekdayWords.getD k []

/-! # Helper lemmas -/

theorem litCI_sound : ∀ (lit cs con r : List Char), litCI lit cs = some (con, r) →
    cs = con ++ r ∧ con.map Char.toLower = lit := by
  intro lit
  induction lit with
  | nil =>
    intro cs con r h
    simp only [litCI, Option.some.injEq, Prod.mk.injEq] at h
    obtain ⟨h1, h2⟩ := h
    subst h1; subst h2; simp
  | cons l ls ih =>
    intro cs con r h
    cases cs with
    | nil => simp [litCI] at h
    | cons c cs2 =>
      simp only [litCI] at h
      split at h
      · rename_i hc
        cases hrec : litCI ls cs2 with
        | some v =>
          obtain ⟨con2, r2⟩ := v
          rw [hrec] at h
          simp only [Option.some.injEq, Prod.mk.injEq] at h
          obtain ⟨h1, h2⟩ := h
          obtain ⟨hsplit, hmap⟩ := ih cs2 con2 r2 hrec
          subst h1; subst h2; subst hsplit
          simp [hmap, hc]
        | none => rw [hrec] at h; exact absurd h (by simp)
      · exact absurd h (by simp)

theorem tryWordCI_sound {w cs con r : List Char} (h : tryWordCI w cs = some (con, r)) :
    cs = con ++ r ∧ con.map Char.toLower = w ∧ afterBoundary r = true := by
  unfold tryWordCI at h
  split at h
  · rename_i con2 r2 hl
    split at h
    · rename_i hb
      simp only [Option.some.injEq, Prod.mk.injEq] at h
      obtain ⟨h1, h2⟩ := h
      subst h1; subst h2
      obtain ⟨hs, hm⟩ := litCI_sound _ _ _ _ hl
      exact ⟨hs, hm, hb⟩
    · exact absurd h (by simp)
  · exact absurd h (by simp)

theorem tryWordsCI_sound : ∀ (ws : List (List Char)) {cs con r : List Char},
    tryWordsCI ws cs = some (con, r) →
    cs = con ++ r ∧ ∃ w ∈ ws, con.map Char.toLower = w ∧ afterBoundary r = true := by
  intro ws
  induction ws with
  | nil => intro cs con r h; simp [tryWordsCI] at h
  | cons w ws ih =>
    intro cs con r h
    simp only [tryWordsCI] at h
    cases h1 : tryWordCI w cs with
    | some v =>
      rw [h1] at h
      simp only [Option.some_orElse, Option.some.injEq] at h
      subst h
      obtain ⟨hs, hm, hb⟩ := tryWordCI_sound h1
      exact ⟨hs, w, by simp, hm, hb⟩
    | none =>
      rw [h1] at h
      simp only [Option.none_orElse] at h
      obtain ⟨hs, w2, hw2, hm, hb⟩ := ih h
      exact ⟨hs, w2, by simp [hw2], hm, hb⟩

theorem subEmit_eq {m : Option Char → List Char → Option (List Char × List Char)}
    {prev : Option Char} {cs con out rest : List Char}
    (h : subEmit m prev cs = some (con, out, rest)) :
    m prev cs = some (con, rest) ∧ out = con := by
  unfold subEmit at h
  cases hm : m prev cs with
  | some v =>
    obtain ⟨con2, r2⟩ := v
    rw [hm] at h
    simp only [Option.some.injEq, Prod.mk.injEq] at h
    obtain ⟨h1, h2, h3⟩ := h
    subst h1; subst h2; subst h3
    exact ⟨rfl, rfl⟩
  | none => rw [hm] at h; exact absurd h (by simp)

/-- Every element that `scanAll` emits is produced by the matcher on some
suffix of the scanned text (provided the matcher splits its input). -/
theorem scanAll_mem {α : Type} {m : Option Char → List Char → Option (List Char × α × List Char)}
    (hm : ∀ prev s con out rest, m prev s = some (con, out, rest) → s = con ++ rest) :
    ∀ (fuel : Nat) (prev : Option Char) (cs : List Char) (x : α),
      x ∈ scanAll m fuel prev cs →
      ∃ prev2 s con rest, (∃ pre, pre ++ s = cs) ∧ m prev2 s = some (con, x, rest) := by
  intro fuel
  induction fuel with
  | zero => intro prev cs x hx; simp [scanAll] at hx
  | succ fuel ih =>
    intro prev cs x hx
    cases cs with
    | nil => simp [scanAll] at hx
    | cons c cs2 =>
      simp only [scanAll] at hx
      cases hmatch : m prev (c :: cs2) with
      | some v =>
        obtain ⟨con, out, rest⟩ := v
        rw [hmatch] at hx
        simp only [List.mem_cons] at hx
        cases hx with
        | inl h => subst h; exact ⟨prev, c :: cs2, con, rest, ⟨[], rfl⟩, hmatch⟩
        | inr h =>
          obtain ⟨prev2, s, con2, rest2, ⟨pre, hpre⟩, hm2⟩ := ih _ rest x h
          have hsplit := hm _ _ _ _ _ hmatch
          refine ⟨prev2, s, con2, rest2, ⟨con ++ pre, ?_⟩, hm2⟩
          rw [List.append_assoc, hpre, ← hsplit]
      | none =>
        rw [hmatch] at hx
        obtain ⟨prev2, s, con2, rest2, ⟨pre, hpre⟩, hm2⟩ := ih _ cs2 x hx
        exact ⟨prev2, s, con2, rest2, ⟨c :: pre, by rw [List.cons_append, hpre]⟩, hm2⟩

theorem takeWhile_all {p : Char → Bool} {l : List Char} :
    ∀ c ∈ l.takeWhile p, p c = true :=
  fun _ h => List.mem_takeWhile_imp h

theorem amPm_sound {r mer r2 : List Char}
    (h : ((litCI (String.data "am") r) <|> (litCI (String.data "pm") r)) = some (mer, r2)) :
    r = mer ++ r2 ∧
    (mer.map Char.toLower = String.data "am" ∨ mer.map Char.toLower = String.data "pm") := by
  cases h1 : litCI (String.data "am") r with
  | some v =>
    rw [h1] at h
    simp only [Option.some_orElse, Option.some.injEq] at h
    subst h
    have := litCI_sound _ _ _ _ h1
    exact ⟨this.1, Or.inl this.2⟩
  | none =>
    rw [h1] at h
    simp only [Option.none_orElse] at h
    have := litCI_sound _ _ _ _ h
    exact ⟨this.1, Or.inr this.2⟩

theorem meridTail_sound {acc rest con r2 : List Char}
    (h : meridTail acc rest = some (con, r2)) :
    ∃ sp mer, con = acc ++ sp ++ mer ∧ rest = sp ++ mer ++ r2 ∧
      (∀ c ∈ sp, isSpaceChar c = true) ∧
      (mer.map Char.toLower = String.data "am" ∨ mer.map Char.toLower = String.data "pm") := by
  simp only [meridTail] at h
  split at h
  · rename_i mer r3 horelse
    split at h
    · rename_i hb
      simp only [Option.some.injEq, Prod.mk.injEq] at h
      obtain ⟨h1, h2⟩ := h
      subst h1; subst h2
      obtain ⟨hsplit, hmer⟩ := amPm_sound horelse
      refine ⟨rest.takeWhile isSpaceChar, mer, rfl, ?_, takeWhile_all, hmer⟩
      conv_lhs => rw [← List.takeWhile_append_dropWhile isSpaceChar rest]
      rw [hsplit, List.append_assoc]
    · exact absurd h (by simp)
  · exact absurd h (by simp)

theorem colonTail_sound {acc rest con r2 : List Char}
    (h : colonTail acc rest = some (con, r2)) :
    ∃ d1 d2 r, rest = ':' :: d1 :: d2 :: r ∧ isDigitChar d1 = true ∧ isDigitChar d2 = true ∧
      meridTail (acc ++ [':', d1, d2]) r = some (con, r2) := by
  unfold colonTail at h
  split at h
  · rename_i c0 d1 d2 r
    split at h
    · rename_i hcond
      simp only [Bool.and_eq_true, decide_eq_true_eq] at hcond
      obtain ⟨⟨hc0, hd1⟩, hd2⟩ := hcond
      subst hc0
      exact ⟨d1, d2, r, rfl, hd1, hd2, h⟩
    · exact absurd h (by simp)
  · exact absurd h (by simp)

theorem hourTail_sound {acc rest con r2 : List Char}
    (h : hourTail acc rest = some (con, r2)) :
    ∃ mid, con = acc ++ mid ∧ rest = mid ++ r2 ∧
      ∃ cp sp mer, mid = cp ++ sp ++ mer ∧
        (cp = [] ∨ ∃ d1 d2, cp = [':', d1, d2] ∧ isDigitChar d1 = true ∧ isDigitChar d2 = true) ∧
        (∀ c ∈ sp, isSpaceChar c = true) ∧
        (mer.map Char.toLower = String.data "am" ∨ mer.map Char.toLower = String.data "pm") := by
  unfold hourTail at h
  cases h1 : colonTail acc rest with
  | some v =>
    rw [h1] at h
    simp only [Option.some_orElse, Option.some.injEq] at h
    subst h
    obtain ⟨d1, d2, r, hrest, hd1, hd2, hmer⟩ := colonTail_sound h1
    obtain ⟨sp, mer, hcon, hr, hsp, hm⟩ := meridTail_sound hmer
    refine ⟨[':', d1, d2] ++ sp ++ mer, ?_, ?_, [':', d1, d2], sp, mer, rfl,
      Or.inr ⟨d1, d2, rfl, hd1, hd2⟩, hsp, hm⟩
    · rw [hcon]; simp [List.append_assoc]
    · rw [hrest, hr]; simp [List.append_assoc]
  | none =>
    rw [h1] at h
    simp only [Option.none_orElse] at h
    obtain ⟨sp, mer, hcon, hr, hsp, hm⟩ := meridTail_sound h
    exact ⟨sp ++ mer, by rw [hcon, List.append_assoc], by rw [hr, List.append_assoc],
      [], sp, mer, by simp, Or.inl rfl, hsp, hm⟩

theorem matchTimeAt_sound {prev : Option Char} {cs con r2 : List Char}
    (h : matchTimeAt prev cs = some (con, r2)) :
    cs = con ++ r2 ∧ isTimeLiteral con := by
  unfold matchTimeAt at h
  split at h
  case isFalse => exact absurd h (by simp)
  split at h
  case h_1 => exact absurd h (by simp)
  rename_i c1 r1
  split at h
  case isFalse => exact absurd h (by simp)
  rename_i hd1
  cases h1 : (match r1 with
      | c2 :: r2 => if isDigitChar c2 = true then hourTail [c1, c2] r2 else none
      | [] => none) with
  | some v =>
    rw [h1] at h
    simp only [Option.some_orElse, Option.some.injEq] at h
    subst h
    split at h1
    · rename_i c2 r3
      split at h1
      · rename_i hd2
        obtain ⟨mid, hcon, hr3, cp, sp, mer, hmid, hcp, hsp, hm⟩ := hourTail_sound h1
        constructor
        · rw [hcon, hr3]; simp [List.append_assoc]
        · refine ⟨[c1, c2], cp, sp, mer, ?_, Or.inr rfl, ?_, hcp, hsp, hm⟩
          · rw [hcon, hmid]; simp [List.append_assoc]
          · intro c hc
            simp only [List.mem_cons, List.mem_singleton] at hc
            rcases hc with rfl | rfl | hc
            · exact hd1
            · exact hd2
            · exact absurd hc (List.not_mem_nil c)
      · exact absurd h1 (by simp)
    · exact absurd h1 (by simp)
  | none =>
    rw [h1] at h
    simp only [Option.none_orElse] at h
    obtain ⟨mid, hcon, hr1, cp, sp, mer, hmid, hcp, hsp, hm⟩ := hourTail_sound h
    constructor
    · rw [hcon, hr1]; simp
    · refine ⟨[c1], cp, sp, mer, ?_, Or.inl rfl, ?_, hcp, hsp, hm⟩
      · rw [hcon, hmid]; simp
      · intro c hc
        simp only [List.mem_singleton] at hc
        subst hc
        exact hd1

theorem secondWord_sound {c1 : Char} {run r3 con r5 : List Char}
    (h : secondWord c1 run r3 = some (con, r5)) :
    ∃ c2 run2, r3 = c2 :: (run2 ++ r5) ∧ con = c1 :: run ++ ' ' :: c2 :: run2 ∧
      isUpperChar c2 = true ∧ run2 ≠ [] ∧ (∀ c ∈ run2, isLowerChar c = true) := by
  simp only [secondWord] at h
  split at h
  · exact absurd h (by simp)
  · rename_i c2 r4
    split at h
    · split at h
      · exact absurd h (by simp)
      · rename_i hup hrun
        split at h
        · simp only [Option.some.injEq, Prod.mk.injEq] at h
          obtain ⟨h1, h2⟩ := h
          subst h1; subst h2
          refine ⟨c2, r4.takeWhile isLowerChar, ?_, rfl, hup, ?_, takeWhile_all⟩
          · rw [List.takeWhile_append_dropWhile]
          · intro heq
            rw [heq] at hrun
            simp at hrun
        · exact absurd h (by simp)
    · exact absurd h (by simp)

theorem matchNameAt_sound {prev : Option Char} {cs con rest : List Char}
    (h : matchNameAt prev cs = some (con, rest)) :
    cs = con ++ rest ∧ isNameShape con := by
  simp only [matchNameAt] at h
  split at h
  case isFalse => exact absurd h (by simp)
  split at h
  case h_1 => exact absurd h (by simp)
  rename_i c1 r1
  split at h
  case isFalse => exact absurd h (by simp)
  rename_i hup
  split at h
  case isTrue => exact absurd h (by simp)
  rename_i hrun
  split at h
  case h_1 => exact absurd h (by simp)
  rename_i s r3 heq
  split at h
  case isFalse => exact absurd h (by simp)
  rename_i hs
  subst hs
  have hrun2 : r1.takeWhile isLowerChar ≠ [] := by
    intro he; rw [he] at hrun; simp at hrun
  have hcs : c1 :: r1 = c1 :: (r1.takeWhile isLowerChar ++ (' ' :: r3)) := by
    rw [← heq, List.takeWhile_append_dropWhile]
  cases h1 : secondWord c1 (r1.takeWhile isLowerChar) r3 with
  | some v =>
    obtain ⟨con2, r5⟩ := v
    rw [h1] at h
    simp only [Option.some_orElse, Option.some.injEq, Prod.mk.injEq] at h
    obtain ⟨hc, hr⟩ := h
    subst hc; subst hr
    obtain ⟨c2, run2, hr3, hcon, hup2, hrun2ne, hlow2⟩ := secondWord_sound h1
    constructor
    · rw [hcs, hr3, hcon]
      simp
    · rw [hcon]
      exact Or.inr ⟨c1, r1.takeWhile isLowerChar, c2, run2, rfl, hup, hrun2,
        takeWhile_all, hup2, hrun2ne, hlow2⟩
  | none =>
    rw [h1] at h
    simp only [Option.none_orElse] at h
    split at h
    · rename_i c2 r4
      split at h
      · simp only [Option.some.injEq, Prod.mk.injEq] at h
        obtain ⟨hc, hr⟩ := h
        subst hc; subst hr
        constructor
        · rw [hcs]
          simp
        · exact Or.inl ⟨c1, r1.takeWhile isLowerChar, rfl, hup, hrun2, takeWhile_all⟩
      · exact absurd h (by simp)
    · exact absurd h (by simp)

theorem pyDedupGo_props : ∀ (fuel : Nat) (l : List (List Char)), l.length ≤ fuel →
    (pyDedupGo fuel l).Nodup ∧ List.Sublist (pyDedupGo fuel l) l ∧
    (∀ x, x ∈ pyDedupGo fuel l ↔ x ∈ l) := by
  intro fuel
  induction fuel with
  | zero =>
    intro l hl
    rw [Nat.le_zero, List.length_eq_zero] at hl
    subst hl
    simp [pyDedupGo]
  | succ fuel ih =>
    intro l hl
    cases l with
    | nil => simp [pyDedupGo]
    | cons x xs =>
      have hlen : (xs.filter (fun y => y ≠ x)).length ≤ fuel := by
        have h1 := List.length_filter_le (fun y => y ≠ x) xs
        simp only [List.length_cons, Nat.succ_le_succ_iff] at hl
        omega
      obtain ⟨ihn, ihs, ihm⟩ := ih (xs.filter (fun y => y ≠ x)) hlen
      have hrw : pyDedupGo (fuel + 1) (x :: xs) =
          x :: pyDedupGo fuel (xs.filter (fun y => y ≠ x)) := rfl
      refine ⟨?_, ?_, ?_⟩
      · rw [hrw]
        refine List.nodup_cons.mpr ⟨fun hmem => ?_, ihn⟩
        have := (ihm x).mp hmem
        simp at this
      · rw [hrw]
        exact List.Sublist.cons₂ x (ihs.trans (List.filter_sublist xs))
      · intro y
        rw [hrw]
        simp only [List.mem_cons]
        constructor
        · rintro (rfl | hy)
          · exact Or.inl rfl
          · have := (ihm y).mp hy
            rw [List.mem_filter] at this
            exact Or.inr this.1
        · rintro (rfl | hy2)
          · exact Or.inl rfl
          · by_cases hxy : y = x
            · exact Or.inl hxy
            · exact Or.inr ((ihm y).mpr (List.mem_filter.mpr ⟨hy2, by simp [hxy]⟩))

theorem pyDedup_props (l : List (List Char)) :
    (pyDedup l).Nodup ∧ List.Sublist (pyDedup l) l ∧ (∀ x, x ∈ pyDedup l ↔ x ∈ l) :=
  pyDedupGo_props l.length l (Nat.le_refl _)

theorem filterMap_label_min {text : List Char} (hmin : minuteSearch text = true) :
    ∀ l : List (List Char), l.filterMap (labelDuration text) =
      l.map (fun n => n ++ String.data " mins") := by
  intro l
  induction l with
  | nil => rfl
  | cons a l ih => simp [List.filterMap_cons, labelDuration, hmin, ih]

theorem filterMap_label_hour {text : List Char} (hmin : minuteSearch text = false)
    (hhour : hourSearch text = true) :
    ∀ l : List (List Char), l.filterMap (labelDuration text) =
      l.map (fun n => n ++ String.data " hours") := by
  intro l
  induction l with
  | nil => rfl
  | cons a l ih => simp [List.filterMap_cons, labelDuration, hmin, hhour, ih]

/-! # Claim theorems -/

/-- Claim C1, counterexample: the claim's offset formula
`(target - current + 7) mod 7`, forced to 7 when 0, predicts that
`next tuesday` evaluated on Monday 1970-01-05 (day 4) yields 1970-01-06,
but `parse_date` computes `target - current + 7 = 8` and returns
1970-01-13. -/
theorem c1_next_weekday_cex :
    parse_date (String.data "next tuesday") 4 = String.data "1970-01-13" ∧
    formatDate (4 + claimedNextOffset 1 (pyWeekday 4)) = String.data "1970-01-06" ∧
    parse_date (String.data "next tuesday") 4 ≠
      formatDate (4 + claimedNextOffset 1 (pyWeekday 4)) := by
  decide

/-- Claim C1 (amended): for a `next <weekday>` input, `parse_date` returns
the current date plus the offset `target_weekday_index -
current_weekday_index + 7` with NO modulo; when today already is the
target weekday that offset equals 7, so `next monday` on a Monday
resolves to the following Monday, not today. -/
theorem c1_next_weekday_offset (today : Int) (k : Nat) (hk : k < 7) :
    parse_date (String.data "next " ++ dayNameN k) today =
      formatDate (today + ((k : Int) - pyWeekday today + 7)) ∧
    (pyWeekday today = (k : Int) →
      parse_date (String.data "next " ++ dayNameN k) today = formatDate (today + 7)) := by
  have hmain : parse_date (String.data "next " ++ dayNameN k) today =
      formatDate (today + ((k : Int) - pyWeekday today + 7)) := by
    interval_cases k <;> rfl
  refine ⟨hmain, fun h => ?_⟩
  rw [hmain, h, show (k : Int) - (k : Int) + 7 = (7 : Int) from by ring]

/-- Claim C1 witness: `next monday` on Monday 1970-01-05 (day 4, weekday
0) resolves to day 11, the following Monday. -/
theorem c1_next_weekday_offset_witness :
    parse_date (String.data "next " ++ dayNameN 0) 4 = formatDate (4 + 7) :=
  (c1_next_weekday_offset 4 0 (by decide)).2 (by decide)

/-- Claim C2, counterexample: the offset computed for `next monday` on a
Sunday (day 3 = 1970-01-04, weekday 6) is `0 - 6 + 7 = 1`, NOT at least
7: the result is 1970-01-05, one day ahead, not 8 days ahead. -/
theorem c2_offset_bounds_cex :
    parse_date (String.data "next monday") 3 = formatDate (3 + 1) ∧
    formatDate (3 + 1) = String.data "1970-01-05" ∧
    parse_date (String.data "next monday") 3 ≠ formatDate (3 + 8) ∧
    (0 : Int) - pyWeekday 3 + 7 = 1 := by
  decide

/-- Claim C2 (amended): the offset `target - current + 7` (no modulo)
computed by `parse_date` for `next <weekday>` lies between 1 and 13, and
it is at least 7 exactly when the target weekday index is at least the
current weekday index; on a Sunday, `next monday` therefore yields 1 day
ahead, not 8. -/
theorem c2_offset_bounds (today : Int) (k : Nat) (hk : k < 7) :
    parse_date (String.data "next " ++ dayNameN k) today =
      formatDate (today + ((k : Int) - pyWeekday today + 7)) ∧
    1 ≤ (k : Int) - pyWeekday today + 7 ∧ (k : Int) - pyWeekday today + 7 ≤ 13 ∧
    (7 ≤ (k : Int) - pyWeekday today + 7 ↔ pyWeekday today ≤ (k : Int)) := by
  have hw : 0 ≤ pyWeekday today ∧ pyWeekday today < 7 := by
    unfold pyWeekday; omega
  have hmain : parse_date (String.data "next " ++ dayNameN k) today =
      formatDate (today + ((k : Int) - pyWeekday today + 7)) := by
    interval_cases k <;> rfl
  exact ⟨hmain, by omega, by omega, by omega⟩

/-- Claim C2 witness: instantiation at Sunday (day 3) and target monday
(index 0): the computed offset is `0 - 6 + 7`, which is ≥ 1. -/
theorem c2_offset_bounds_witness :
    parse_date (String.data "next " ++ dayNameN 0) 3 =
      formatDate (3 + ((0 : Int) - pyWeekday 3 + 7)) ∧
    1 ≤ (0 : Int) - pyWeekday 3 + 7 :=
  ⟨(c2_offset_bounds 3 0 (by decide)).1, (c2_offset_bounds 3 0 (by decide)).2.1⟩

/-- Claim C3: the result of `extract_entities` always carries exactly the
four keys DATE, TIME, DURATION, ATTENDEE in this order, and on the empty
input (with the NER model finding nothing in the empty text) all four
value lists are empty. -/
theorem c3_four_keys (text : List Char) (today : Int)
    (ner : List Char → List (List Char)) :
    (extract_entities text today ner).map Prod.fst =
      [String.data "DATE", String.data "TIME", String.data "DURATION",
       String.data "ATTENDEE"] ∧
    (ner [] = [] → extract_entities [] today ner =
      [(String.data "DATE", []), (String.data "TIME", []),
       (String.data "DURATION", []), (String.data "ATTENDEE", [])]) := by
  refine ⟨rfl, fun h => ?_⟩
  unfold extract_entities rawAttendees
  rw [h]
  rfl

/-- Claim C3 witness: the empty-input instance with the trivial NER stub. -/
theorem c3_four_keys_witness :
    extract_entities [] 0 nerNone =
      [(String.data "DATE", []), (String.data "TIME", []),
       (String.data "DURATION", []), (String.data "ATTENDEE", [])] :=
  (c3_four_keys [] 0 nerNone).2 rfl

/-- Claim C4: when the whole input text contains both a minute-indicating
word and an hour-indicating word (as the code's two `re.search` re-scans
of the full text decide it), EVERY duration match is labelled
`<n> mins` — the minutes re-scan is checked first and looks at the whole
text, not the local match. -/
theorem c4_minutes_priority (text : List Char) (today : Int)
    (ner : List Char → List (List Char))
    (hmin : minuteSearch text = true) (_hhour : hourSearch text = true) :
    category (String.data "DURATION") (extract_entities text today ner) =
      (durFindall text).map (fun n => n ++ String.data " mins") := by
  have e : category (String.data "DURATION") (extract_entities text today ner) =
      (durFindall text).filterMap (labelDuration text) := rfl
  rw [e, filterMap_label_min hmin]

/-- Claim C4 witness: `"1 hour and 30 mins"` contains both unit words, so
both duration matches are labelled `mins`, mislabelling the hour. -/
theorem c4_minutes_priority_witness :
    category (String.data "DURATION")
      (extract_entities (String.data "1 hour and 30 mins") 0 nerNone) =
      [String.data "1 mins", String.data "30 mins"] := by
  have h := c4_minutes_priority (String.data "1 hour and 30 mins") 0 nerNone
    (by decide) (by decide)
  rw [h]
  decide

/-- Claim C5, counterexample: on the input `"Jane"` (a lone capitalized
word) with the NER strategy returning nothing, the fallback regex
`\b[A-Z][a-z]+ (?:[A-Z][a-z]+)?\b` matches NOTHING — its literal space is
mandatory — so the ATTENDEE list is empty rather than containing
`"Jane"`. -/
theorem c5_fallback_cex :
    nameFindall (String.data "Jane") = [] ∧
    category (String.data "ATTENDEE")
      (extract_entities (String.data "Jane") 0 nerNone) = [] ∧
    ¬ String.data "Jane" ∈ category (String.data "ATTENDEE")
      (extract_entities (String.data "Jane") 0 nerNone) := by
  decide

/-- Claim C5 (amended): when the NER strategy yields zero person spans,
the ATTENDEE result is the de-duplicated list of fallback-regex matches
collected in order of appearance, and every match is a literal substring
of the text of the shape "capitalized word, mandatory space, then either
a second capitalized word or (when a word character follows the space)
nothing" — a lone capitalized word is not matched, and a single-word
match keeps its trailing space. -/
theorem c5_fallback_shape (text : List Char) (today : Int)
    (ner : List Char → List (List Char)) (h : ner text = []) :
    category (String.data "ATTENDEE") (extract_entities text today ner) =
      pyDedup (nameFindall text) ∧
    (∀ m ∈ nameFindall text, occursIn m text ∧ isNameShape m) := by
  constructor
  · have e : category (String.data "ATTENDEE") (extract_entities text today ner) =
        pyDedup (rawAttendees text ner) := rfl
    rw [e]
    unfold rawAttendees
    rw [h]
    rfl
  · intro m hm
    unfold nameFindall at hm
    have hsplit : ∀ prev s con out rest,
        subEmit matchNameAt prev s = some (con, out, rest) → s = con ++ rest := by
      intro prev s con out rest hs
      obtain ⟨hmm, _⟩ := subEmit_eq hs
      exact (matchNameAt_sound hmm).1
    obtain ⟨prev2, s2, con, rest, ⟨pre, hpre⟩, hms⟩ := scanAll_mem hsplit _ _ _ _ hm
    obtain ⟨hmm, hout⟩ := subEmit_eq hms
    subst hout
    obtain ⟨hsp, hshape⟩ := matchNameAt_sound hmm
    exact ⟨⟨pre, rest, by rw [← hpre, hsp, List.append_assoc]⟩, hshape⟩

/-- Claim C5 witness: on `"Meet Jane Doe now"` with no NER results the
fallback produces `["Meet Jane", "Doe "]` (pair match, then a single-word
match with its trailing space). -/
theorem c5_fallback_shape_witness :
    category (String.data "ATTENDEE")
      (extract_entities (String.data "Meet Jane Doe now") 0 nerNone) =
      pyDedup (nameFindall (String.data "Meet Jane Doe now")) ∧
    pyDedup (nameFindall (String.data "Meet Jane Doe now")) =
      [String.data "Meet Jane", String.data "Doe "] :=
  ⟨(c5_fallback_shape (String.data "Meet Jane Doe now") 0 nerNone rfl).1, by decide⟩

/-- Claim C6: for each relative-date literal in any letter case,
`parse_date` returns the current date plus the fixed offset 0 / +1 / −1
days, formatted `YYYY-MM-DD`. -/
theorem c6_relative_literals (s : List Char) (today : Int) :
    (s.map Char.toLower = String.data "today" →
      parse_date s today = formatDate today) ∧
    (s.map Char.toLower = String.data "tomorrow" →
      parse_date s today = formatDate (today + 1)) ∧
    (s.map Char.toLower = String.data "yesterday" →
      parse_date s today = formatDate (today - 1)) := by
  refine ⟨fun h => ?_, fun h => ?_, fun h => ?_⟩ <;>
    (unfold parse_date; rw [h]; rfl)

/-- Claim C6 witness: `"ToMorrow"` on day 0 (1970-01-01) yields
`1970-01-02`. -/
theorem c6_relative_literals_witness :
    parse_date (String.data "ToMorrow") 0 = String.data "1970-01-02" := by
  have h := (c6_relative_literals (String.data "ToMorrow") 0).2.1 (by decide)
  rw [h]
  decide

/-- Claim C7: an input matching neither the anchored `next <weekday>`
pattern nor one of the literals today/tomorrow/yesterday is returned by
`parse_date` unchanged (the `except` branch of the source likewise
returns `date_str`; the embedded function is total). -/
theorem c7_passthrough (s : List Char) (today : Int)
    (h1 : nextDayMatch (s.map Char.toLower) = none)
    (h2 : ¬ s.map Char.toLower ∈ dateWords) :
    parse_date s today = s := by
  unfold parse_date
  split
  · rename_i idx hidx
    rw [h1] at hidx
    exact absurd hidx (by simp)
  · simp only [dateWords, List.mem_cons, List.not_mem_nil, or_false, not_or] at h2
    obtain ⟨ha, hb, hc⟩ := h2
    rw [if_neg ha, if_neg hb, if_neg hc]

/-- Claim C7 witness: `"march 5"` passes through unchanged. -/
theorem c7_passthrough_witness :
    parse_date (String.data "march 5") 0 = String.data "march 5" :=
  c7_passthrough (String.data "march 5") 0 (by decide) (by decide)

/-- Claim C8: the ATTENDEE list is the stable first-occurrence
de-duplication of the raw attendee list: it has no duplicates, it is a
sublist of the raw list (so relative order is preserved, no re-sorting),
it has the same members, and an input mentioning "Jane Doe" twice yields
exactly one "Jane Doe" entry. -/
theorem c8_attendee_dedup (text : List Char) (today : Int)
    (ner : List Char → List (List Char)) :
    category (String.data "ATTENDEE") (extract_entities text today ner) =
      pyDedup (rawAttendees text ner) ∧
    (category (String.data "ATTENDEE") (extract_entities text today ner)).Nodup ∧
    List.Sublist (category (String.data "ATTENDEE") (extract_entities text today ner))
      (rawAttendees text ner) ∧
    (∀ x, x ∈ category (String.data "ATTENDEE") (extract_entities text today ner) ↔
      x ∈ rawAttendees text ner) ∧
    category (String.data "ATTENDEE")
      (extract_entities (String.data "Jane Doe meets Jane Doe") 0 nerNone) =
      [String.data "Jane Doe"] := by
  have e : category (String.data "ATTENDEE") (extract_entities text today ner) =
      pyDedup (rawAttendees text ner) := rfl
  obtain ⟨hn, hs, hm⟩ := pyDedup_props (rawAttendees text ner)
  refine ⟨e, ?_, ?_, ?_, by decide⟩
  · rw [e]; exact hn
  · rw [e]; exact hs
  · intro x; rw [e]; exact hm x

/-- Claim C9: every entry of the TIME list is the original literal
substring of the input that matched the clock-time pattern
`H[:MM] am|pm`, with no rewriting. -/
theorem c9_time_literal (text : List Char) (today : Int)
    (ner : List Char → List (List Char)) (m : List Char)
    (hm : m ∈ category (String.data "TIME") (extract_entities text today ner)) :
    occursIn m text ∧ isTimeLiteral m := by
  have e : category (String.data "TIME") (extract_entities text today ner) =
      timeFindall text := rfl
  rw [e] at hm
  unfold timeFindall at hm
  have hsplit : ∀ prev s con out rest,
      subEmit matchTimeAt prev s = some (con, out, rest) → s = con ++ rest := by
    intro prev s con out rest hs
    obtain ⟨hmm, _⟩ := subEmit_eq hs
    exact (matchTimeAt_sound hmm).1
  obtain ⟨prev2, s2, con, rest, ⟨pre, hpre⟩, hms⟩ := scanAll_mem hsplit _ _ _ _ hm
  obtain ⟨hmm, hout⟩ := subEmit_eq hms
  subst hout
  obtain ⟨hsp, hlit⟩ := matchTimeAt_sound hmm
  exact ⟨⟨pre, rest, by rw [← hpre, hsp, List.append_assoc]⟩, hlit⟩

/-- Claim C9 witness: `"3pm"` extracted from `"at 3pm"` is a literal
substring matching the clock-time shape. -/
theorem c9_time_literal_witness :
    occursIn (String.data "3pm") (String.data "at 3pm") ∧
    isTimeLiteral (String.data "3pm") :=
  c9_time_literal (String.data "at 3pm") 0 nerNone (String.data "3pm") (by decide)

/-- Claim C10: DATE, TIME and DURATION keep one entry per regex match in
left-to-right order — DATE is the per-match normalization of the date
matches, TIME is exactly the list of time matches, DURATION carries one
label per duration match (under the unit re-scan that always succeeds
when a match exists) — and repeated phrases appear repeatedly, while only
ATTENDEE is de-duplicated. -/
theorem c10_no_dedup_others (text : List Char) (today : Int)
    (ner : List Char → List (List Char)) :
    category (String.data "DATE") (extract_entities text today ner) =
      (dateFindall text).map (fun d => parse_date d today) ∧
    category (String.data "TIME") (extract_entities text today ner) =
      timeFindall text ∧
    (minuteSearch text = true →
      category (String.data "DURATION") (extract_entities text today ner) =
        (durFindall text).map (fun n => n ++ String.data " mins")) ∧
    (minuteSearch text = false → hourSearch text = true →
      category (String.data "DURATION") (extract_entities text today ner) =
        (durFindall text).map (fun n => n ++ String.data " hours")) ∧
    extract_entities (String.data "tomorrow 3pm 30 mins tomorrow 3pm 30 mins") 0 nerNone =
      [(String.data "DATE", [String.data "1970-01-02", String.data "1970-01-02"]),
       (String.data "TIME", [String.data "3pm", String.data "3pm"]),
       (String.data "DURATION", [String.data "30 mins", String.data "30 mins"]),
       (String.data "ATTENDEE", [])] ∧
    category (String.data "ATTENDEE")
      (extract_entities (String.data "tomorrow 3pm 30 mins tomorrow 3pm 30 mins") 0 nerTwice) =
      [String.data "Bob"] := by
  refine ⟨rfl, rfl, fun hmin => ?_, fun hmin hh => ?_, by decide, by decide⟩
  · have e : category (String.data "DURATION") (extract_entities text today ner) =
        (durFindall text).filterMap (labelDuration text) := rfl
    rw [e, filterMap_label_min hmin]
  · have e : category (String.data "DURATION") (extract_entities text today ner) =
        (durFindall text).filterMap (labelDuration text) := rfl
    rw [e, filterMap_label_hour hmin hh]

/-- Claim C10 witness: the duplicated input keeps both duration labels. -/
theorem c10_no_dedup_others_witness :
    category (String.data "DURATION")
      (extract_entities (String.data "tomorrow 3pm 30 mins tomorrow 3pm 30 mins") 0 nerNone) =
      [String.data "30 mins", String.data "30 mins"] := by
  have h := (c10_no_dedup_others
    (String.data "tomorrow 3pm 30 mins tomorrow 3pm 30 mins") 0 nerNone).2.2.1 (by decide)
  rw [h]
  decide
